import Mathlib

/-!
Verification development for the `fingered` finger-protocol server.

The Rust sources are shallowly embedded: Rust `&str`/`String` values become
`List Char`, raw socket bytes become `List Nat`, fallible operations return
`Option`, and the asynchronous connection handler becomes a pure function
from the input byte stream to an optional reply (`none` models the handler
failing without writing a reply).
-/

namespace Fingered

/-! ## Request parser (src/request.rs) -/

/-- Character set accepted inside a username, from `USERNAME_ALLOWED_CHARS`. -/
def USERNAME_ALLOWED_CHARS : List Char :=
  "-.0123456789ABCDEFGHIJKLMNOPQRSTUVWXYZ_abcdefghijklmnopqrstuvwxyz".toList

/-- The parsed request structure, from `struct Request`. -/
structure Request where
  verbose : Bool
  user : Option (List Char)
  forwarding : Option (List Char)
deriving DecidableEq

/-- `Request::new_list`. -/
def Request.new_list (verbose : Bool) : Request :=
  { verbose := verbose, user := none, forwarding := none }

/-- `tag("/W")`: consume a leading "/W", returning the rest, or fail. -/
def pVerbose (s : List Char) : Option (List Char) :=
  match s with
  | '/' :: 'W' :: rest => some rest
  | _ => none

/-- `opt(verbose)`: returns whether the flag was consumed and the remaining input. -/
def afterVerbose (s : List Char) : Bool × List Char :=
  match pVerbose s with
  | some rest => (true, rest)
  | none => (false, s)

/-- `take_while1(|c| c == ' ')`: consume one or more spaces. -/
def pSpace (s : List Char) : Option (List Char) :=
  match s with
  | ' ' :: rest => some (rest.dropWhile (fun c => c == ' '))
  | _ => none

/-- `is_a(USERNAME_ALLOWED_CHARS)`: consume one or more username characters,
returning (consumed, rest). -/
def pIsA (s : List Char) : Option (List Char × List Char) :=
  let t := s.takeWhile (fun c => USERNAME_ALLOWED_CHARS.contains c)
  if t.isEmpty then none else some (t, s.drop t.length)

/-- nom's complete `not_line_ending`: consume characters up to a `\r` or `\n`;
errors if a `\r` is not immediately followed by `\n`. Returns (consumed, rest). -/
def notLineEnding (s : List Char) : Option (List Char × List Char) :=
  let t := s.takeWhile (fun c => !(c == '\r' || c == '\n'))
  match s.drop t.length with
  | '\r' :: '\n' :: r => some (t, '\r' :: '\n' :: r)
  | '\r' :: _ => none
  | r => some (t, r)

/-- `host_chain`: `opt(recognize(preceded(tag("@"), not_line_ending)))`.
`opt` backtracks on error, so a failing `not_line_ending` consumes nothing. -/
def hostChain (s : List Char) : Option (List Char) × List Char :=
  match s with
  | '@' :: rest =>
    match notLineEnding rest with
    | some (consumed, rem) => (some ('@' :: consumed), rem)
    | none => (none, s)
  | _ => (none, s)

/-- The second `alt` branch of `parse`: `preceded(cond(verbose, space),
tuple((opt(is_a(...)), host_chain)))`, returning (leftover, request). -/
def parseBody (verbose : Bool) (i1 : List Char) : Option (List Char × Request) :=
  match (if verbose then pSpace i1 else some i1) with
  | none => none
  | some i2 =>
    let ur : Option (List Char) × List Char :=
      match pIsA i2 with
      | some (u, r) => (some u, r)
      | none => (none, i2)
    let fr := hostChain ur.2
    some (fr.2, { verbose := verbose, user := ur.1, forwarding := fr.1 })

/-- `parse`: optional verbose flag, then either `eof` (list request) or the
username/forwarding body, both wrapped in `all_consuming`. -/
def parse (input : List Char) : Option (List Char × Request) :=
  let vi := afterVerbose input
  if vi.2.isEmpty then some ([], Request.new_list vi.1)
  else
    match parseBody vi.1 vi.2 with
    | some (rest, req) => if rest.isEmpty then some ([], req) else none
    | none => none

/-- `input.strip_suffix("\r\n")`. -/
def stripCRLFSuffix (s : List Char) : Option (List Char) :=
  match s.reverse with
  | c1 :: c2 :: rest => if c1 = '\n' ∧ c2 = '\r' then some rest.reverse else none
  | _ => none

/-- `Request::from_str`: strip the CRLF terminator, then run the parser,
requiring that the entire line is consumed. -/
def Request.fromStr (input : List Char) : Option Request :=
  match stripCRLFSuffix input with
  | none => none
  | some line =>
    match parse line with
    | some ([], req) => some req
    | _ => none

/-! ## User directory and CRLF normalization (src/config.rs) -/

/-- `struct User`. -/
structure User where
  fix_crlf : Bool
  info : Option (List Char)
  long_info : Option (List Char)
  unlisted : Bool
deriving DecidableEq

/-- `struct Users`: the directory. The `HashMap` is modeled as an association
list in the map's (unspecified) iteration order. -/
structure Users where
  enable_index : Bool
  users : List (List Char × User)
deriving DecidableEq

/-- `Users::find`. -/
def Users.find (d : Users) (name : List Char) : Option User :=
  (d.users.find? (fun p => p.1 == name)).map (fun p => p.2)

/-- `User::from_info`. -/
def User.from_info (info : List Char) : User :=
  { fix_crlf := true, info := some info, long_info := none, unlisted := false }

/-- `User::info`: `info` if present, else `long_info`, else the empty string. -/
def User.infoText (u : User) : List Char :=
  match u.info with
  | some info => info
  | none =>
    match u.long_info with
    | some long_info => long_info
    | none => []

/-- `User::long_info`: `long_info` if present, else `info`, else the empty string. -/
def User.longInfoText (u : User) : List Char :=
  match u.long_info with
  | some long_info => long_info
  | none =>
    match u.info with
    | some info => info
    | none => []

/-- `str::split_once('\n')`: split at the first `\n`, which is dropped. -/
def splitOnce : List Char → Option (List Char × List Char)
  | [] => none
  | c :: rest =>
    if c = '\n' then some ([], rest)
    else
      match splitOnce rest with
      | none => none
      | some (a, b) => some (c :: a, b)

/-- `str::split_inclusive('\n')`: split after each `\n`, keeping the terminators. -/
def splitIncl : List Char → List (List Char)
  | [] => []
  | c :: rest =>
    if c = '\n' then [c] :: splitIncl rest
    else
      match splitIncl rest with
      | [] => [[c]]
      | l :: ls => (c :: l) :: ls

/-- The per-piece map of `str::lines`: drop a trailing `\n`, and if one was
dropped also drop a trailing `\r`. -/
def lineMap (p : List Char) : List Char :=
  if p.getLast? = some '\n' then
    if p.dropLast.getLast? = some '\r' then p.dropLast.dropLast else p.dropLast
  else p

/-- `str::lines`. -/
def lines (s : List Char) : List (List Char) :=
  (splitIncl s).map lineMap

/-- Join line contents, terminating each with CRLF: the shape of
`lines().flat_map(|line| [line, "\r\n"]).collect()`. -/
def joinCRLF (ls : List (List Char)) : List Char :=
  (ls.map (fun l => l ++ ['\r', '\n'])).flatten

/-- `fix_str_crlf`. -/
def fix_str_crlf (s : List Char) : List Char :=
  joinCRLF (lines s)

/-- `fix_string_crlf`: no `\n` at all ⇒ append CRLF; a single final bare `\n`
⇒ replace it with CRLF; otherwise rebuild the whole string via `fix_str_crlf`. -/
def fix_string_crlf (s : List Char) : List Char :=
  match splitOnce s with
  | none => s ++ ['\r', '\n']
  | some (prev, rest) =>
    if rest = [] ∧ prev.getLast? ≠ some '\r' then s.dropLast ++ ['\r', '\n']
    else fix_str_crlf s

/-- `User::fix_crlf` (the method): normalize both texts when the flag is set. -/
def User.applyFixCrlf (u : User) : User :=
  if u.fix_crlf then
    { u with info := u.info.map fix_string_crlf, long_info := u.long_info.map fix_string_crlf }
  else u

/-- The untagged `Either` used by `deserialize_users`. -/
inductive Entry where
  | str (s : List Char)
  | user (u : User)

/-- Decoding of one directory entry inside `deserialize_users`: shorthand
strings become `User::from_info`, then `fix_crlf` runs once. -/
def decodeEntry : Entry → User
  | .str s => (User.from_info s).applyFixCrlf
  | .user u => u.applyFixCrlf

/-- `deserialize_users`, on the decoded key/value sequence. -/
def deserialize_users (l : List (List Char × Entry)) : List (List Char × User) :=
  l.map (fun p => (p.1, decodeEntry p.2))

/-- Specification predicate: every `\n` in the string is immediately preceded
by `\r`, i.e. all line terminators are CRLF. Together with the string ending
in CRLF this expresses "every line, including the final one, ends with CRLF". -/
def crlfOnly : List Char → Bool
  | [] => true
  | [c] => c != '\n'
  | c :: d :: rest =>
    if c = '\r' ∧ d = '\n' then crlfOnly rest
    else (c != '\n') && crlfOnly (d :: rest)

/-! ## Connection handler (src/main.rs) -/

/-- `REPLY_NO_FORWARDING`. -/
def REPLY_NO_FORWARDING : List Char := "Finger forwarding service denied\r\n".toList

/-- `REPLY_NO_LISTING`. -/
def REPLY_NO_LISTING : List Char := "Finger online user list denied\r\n".toList

/-- `REPLY_USER_NOT_FOUND`. -/
def REPLY_USER_NOT_FOUND : List Char := "User not found\r\n".toList

/-- `SANE_REQUEST_LENGTH`. -/
def SANE_REQUEST_LENGTH : Nat := 1024

/-- `reader.read_until(b'\n', ...)` over `input.take(cap)`: collect bytes up to
and including the first `\n`, but at most `cap` bytes. -/
def readUntilNL : Nat → List Nat → List Nat
  | _, [] => []
  | 0, _ :: _ => []
  | cap + 1, b :: rest => if b = 10 then [b] else b :: readUntilNL cap rest

/-- Is a byte a UTF-8 continuation byte (`0x80..=0xBF`)? -/
def isCont (b : Nat) : Bool := 0x80 ≤ b && b ≤ 0xBF

/-- Allowed second byte of a three-byte UTF-8 sequence with leading byte `b`. -/
def isCont3First (b b2 : Nat) : Bool :=
  if b = 0xE0 then 0xA0 ≤ b2 && b2 ≤ 0xBF
  else if b = 0xED then 0x80 ≤ b2 && b2 ≤ 0x9F
  else isCont b2

/-- Allowed second byte of a four-byte UTF-8 sequence with leading byte `b`. -/
def isCont4First (b b2 : Nat) : Bool :=
  if b = 0xF0 then 0x90 ≤ b2 && b2 ≤ 0xBF
  else if b = 0xF4 then 0x80 ≤ b2 && b2 ≤ 0x8F
  else isCont b2

/-- `std::str::from_utf8`: strict UTF-8 validation and decoding. The byte
classes are tested from shortest to longest sequence; every malformed prefix
yields `none`. -/
def utf8Decode : List Nat → Option (List Char)
  | [] => some []
  | b :: rest =>
    if b ≤ 0x7F then (utf8Decode rest).map (fun cs => Char.ofNat b :: cs)
    else
      match rest with
      | [] => none
      | b2 :: rest2 =>
        if 0xC2 ≤ b ∧ b ≤ 0xDF then
          if isCont b2 then
            (utf8Decode rest2).map (fun cs => Char.ofNat ((b - 0xC0) * 64 + (b2 - 0x80)) :: cs)
          else none
        else
          match rest2 with
          | [] => none
          | b3 :: rest3 =>
            if 0xE0 ≤ b ∧ b ≤ 0xEF then
              if isCont3First b b2 && isCont b3 then
                (utf8Decode rest3).map
                  (fun cs =>
                    Char.ofNat ((b - 0xE0) * 4096 + (b2 - 0x80) * 64 + (b3 - 0x80)) :: cs)
              else none
            else
              match rest3 with
              | [] => none
              | b4 :: rest4 =>
                if 0xF0 ≤ b ∧ b ≤ 0xF4 then
                  if isCont4First b b2 && isCont b3 && isCont b4 then
                    (utf8Decode rest4).map
                      (fun cs =>
                        Char.ofNat
                          ((b - 0xF0) * 262144 + (b2 - 0x80) * 4096 +
                            (b3 - 0x80) * 64 + (b4 - 0x80)) :: cs)
                  else none
                else none

/-- The user-list loop of `handle_client`: each non-unlisted name followed by CRLF. -/
def listingReply : List (List Char × User) → List Char
  | [] => []
  | (name, u) :: rest =>
    (if u.unlisted then [] else name ++ ['\r', '\n']) ++ listingReply rest

/-- The reply logic of `handle_client`, after a request has been parsed. -/
def handleRequest (users : Users) (req : Request) : List Char :=
  if req.forwarding.isSome then REPLY_NO_FORWARDING
  else
    match req.user with
    | some username =>
      match users.find username with
      | some u => if req.verbose then u.longInfoText else u.infoText
      | none => REPLY_USER_NOT_FOUND
    | none =>
      if users.enable_index then listingReply users.users else REPLY_NO_LISTING

/-- `handle_client`: read one capped line, decode it as UTF-8, parse it, and
compute the reply. `none` models the handler failing (the `unwrap` panics /
the I/O error return) before any reply byte is written. -/
def handle_client (users : Users) (input : List Nat) : Option (List Char) :=
  match utf8Decode (readUntilNL SANE_REQUEST_LENGTH input) with
  | none => none
  | some line =>
    match Request.fromStr line with
    | none => none
    | some req => some (handleRequest users req)

/-! ## Configuration store (src/config.rs, `Config`) -/

/-- `struct Config`: the `RwLock<Arc<Users>>` is modeled by its pure content;
snapshots (`Arc` clones) are plain values. -/
structure Config where
  current : Users

/-- `Config::get`: take a snapshot of the current directory. -/
def Config.get (c : Config) : Users := c.current

/-- `Config::set`: atomically replace the current directory. -/
def Config.set (_ : Config) (u : Users) : Config := { current := u }

/-- `Config::load`, parameterized by the (external) TOML decoder: on success
replace the directory, on failure keep it and surface the error. -/
def Config.load {E : Type} (decode : List Char → Except E Users) (c : Config)
    (toml : List Char) : Config × Option E :=
  match decode toml with
  | .ok u => (c.set u, none)
  | .error e => (c, some e)

/-! ## Helper definitions for concrete scenarios -/

/-- Encode an ASCII string as the byte stream a client would send. -/
def asciiBytes (s : List Char) : List Nat := s.map Char.toNat

/-- The directory `{enable-index: true, users: {"alice": "Hello\n"}}` after
decoding (the shorthand string entry goes through `from_info` + `fix_crlf`). -/
def exampleDirectory : Users :=
  { enable_index := true
    users := deserialize_users [("alice".toList, .str "Hello\n".toList)] }

/-! ## Sanity-check evaluations -/

example : Request.fromStr "\r\n".toList = some (Request.new_list false) := by decide
example : Request.fromStr "/W\r\n".toList = some (Request.new_list true) := by decide
example : Request.fromStr "bob\r\n".toList =
    some { verbose := false, user := some "bob".toList, forwarding := none } := by decide
example : Request.fromStr "/W bob\r\n".toList =
    some { verbose := true, user := some "bob".toList, forwarding := none } := by decide
example : Request.fromStr "bob@example.com\r\n".toList =
    some { verbose := false, user := some "bob".toList,
           forwarding := some "@example.com".toList } := by decide
example : Request.fromStr "@example.com\r\n".toList =
    some { verbose := false, user := none,
           forwarding := some "@example.com".toList } := by decide
example : Request.fromStr "/Wbob\r\n".toList = none := by decide
example : Request.fromStr "bob".toList = none := by decide
example : Request.fromStr "bob garbage\r\n".toList = none := by decide

example : fix_string_crlf "Hello\n".toList = "Hello\r\n".toList := by decide
example : fix_string_crlf "Hello".toList = "Hello\r\n".toList := by decide
example : fix_string_crlf "Hello\r\n".toList = "Hello\r\n".toList := by decide
example : fix_string_crlf "a\nb".toList = "a\r\nb\r\n".toList := by decide
example : fix_string_crlf "a\r\nb\n\n".toList = "a\r\nb\r\n\r\n".toList := by decide
example : fix_string_crlf "".toList = "\r\n".toList := by decide
example : fix_string_crlf "\n".toList = "\r\n".toList := by decide

/-! ## Normalization lemmas -/

theorem splitOnce_eq_none {s : List Char} : splitOnce s = none ↔ '\n' ∉ s := by
  induction s with
  | nil => simp [splitOnce]
  | cons c rest ih =>
    by_cases hc : c = '\n'
    · subst hc; simp [splitOnce]
    · simp only [splitOnce, if_neg hc]
      cases h : splitOnce rest with
      | none => simp [List.mem_cons, Ne.symm hc, ih.mp h]
      | some ab =>
        have : '\n' ∈ rest := by
          by_contra hn
          rw [ih.mpr hn] at h
          cases h
        simp [List.mem_cons, this]

theorem splitOnce_eq_some {s a b : List Char} (h : splitOnce s = some (a, b)) :
    s = a ++ '\n' :: b ∧ '\n' ∉ a := by
  induction s generalizing a b with
  | nil => simp [splitOnce] at h
  | cons c rest ih =>
    by_cases hc : c = '\n'
    · subst hc
      simp [splitOnce] at h
      obtain ⟨ha, hb⟩ := h
      subst ha; subst hb
      simp
    · simp only [splitOnce, if_neg hc] at h
      cases hr : splitOnce rest with
      | none => rw [hr] at h; cases h
      | some ab =>
        obtain ⟨a', b'⟩ := ab
        rw [hr] at h
        simp only [Option.some.injEq, Prod.mk.injEq] at h
        obtain ⟨ha, hb⟩ := h
        obtain ⟨h1, h2⟩ := ih hr
        subst ha; subst hb; subst h1
        refine ⟨rfl, ?_⟩
        simp only [List.mem_cons, not_or]
        exact ⟨Ne.symm hc, h2⟩

theorem splitIncl_eq_nil {s : List Char} : splitIncl s = [] ↔ s = [] := by
  cases s with
  | nil => simp [splitIncl]
  | cons c rest =>
    simp only [splitIncl]
    by_cases hc : c = '\n'
    · simp [hc]
    · simp only [if_neg hc]
      cases splitIncl rest <;> simp

theorem splitIncl_append {a t : List Char} (h : '\n' ∉ a) :
    splitIncl (a ++ '\n' :: t) = (a ++ ['\n']) :: splitIncl t := by
  induction a with
  | nil => simp [splitIncl]
  | cons c a' ih =>
    have hc : c ≠ '\n' := fun hcc => h (by simp [hcc])
    have h' : '\n' ∉ a' := fun hm => h (List.mem_cons_of_mem _ hm)
    simp only [List.cons_append, splitIncl, if_neg hc, List.append_eq, ih h']

theorem mem_splitIncl {s p : List Char} (h : p ∈ splitIncl s) :
    p ≠ [] ∧ '\n' ∉ p.dropLast := by
  induction s generalizing p with
  | nil => simp [splitIncl] at h
  | cons c rest ih =>
    by_cases hc : c = '\n'
    · subst hc
      simp only [splitIncl, if_pos rfl] at h
      rcases List.mem_cons.mp h with h1 | h2
      · subst h1; exact ⟨by simp, by simp⟩
      · exact ih h2
    · simp only [splitIncl, if_neg hc] at h
      cases hr : splitIncl rest with
      | nil =>
        rw [hr] at h
        simp only [List.mem_singleton] at h
        subst h
        exact ⟨by simp, by simp⟩
      | cons l ls =>
        rw [hr] at h
        rcases List.mem_cons.mp h with h1 | h2
        · subst h1
          have hl := ih (p := l) (by rw [hr]; exact List.mem_cons_self l ls)
          obtain ⟨hlne, hlfree⟩ := hl
          refine ⟨by simp, ?_⟩
          rw [List.dropLast_cons_of_ne_nil hlne]
          simp only [List.mem_cons, not_or]
          exact ⟨Ne.symm hc, hlfree⟩
        · exact ih (p := p) (by rw [hr]; exact List.mem_cons_of_mem l h2)

theorem nl_not_mem_lineMap {p : List Char} (hne : p ≠ [])
    (h : '\n' ∉ p.dropLast) : '\n' ∉ lineMap p := by
  unfold lineMap
  split
  · split
    · exact fun hm => h ((List.dropLast_sublist p.dropLast).subset hm)
    · exact h
  · rename_i hlast
    intro hm
    have hpl : p.dropLast ++ [p.getLast hne] = p := List.dropLast_append_getLast hne
    rw [← hpl] at hm
    rcases List.mem_append.mp hm with h1 | h2
    · exact h h1
    · simp only [List.mem_singleton] at h2
      exact hlast (by rw [List.getLast?_eq_getLast p hne, ← h2])

theorem nl_not_mem_lines {s p : List Char} (h : p ∈ lines s) : '\n' ∉ p := by
  obtain ⟨q, hq, rfl⟩ := List.mem_map.mp h
  obtain ⟨hne, hfree⟩ := mem_splitIncl hq
  exact nl_not_mem_lineMap hne hfree

theorem lines_joinCRLF {ls : List (List Char)} (h : ∀ l ∈ ls, '\n' ∉ l) :
    lines (joinCRLF ls) = ls := by
  induction ls with
  | nil => simp [lines, joinCRLF, splitIncl]
  | cons l ls' ih =>
    have hl : '\n' ∉ l := h l (List.mem_cons_self l ls')
    have h' : ∀ x ∈ ls', '\n' ∉ x := fun x hx => h x (List.mem_cons_of_mem l hx)
    have hfree : '\n' ∉ l ++ ['\r'] := by
      simp only [List.mem_append, List.mem_singleton, not_or]
      exact ⟨hl, by decide⟩
    have hshape : joinCRLF (l :: ls') = (l ++ ['\r']) ++ '\n' :: joinCRLF ls' := by
      simp [joinCRLF, List.append_assoc]
    rw [lines, hshape, splitIncl_append hfree]
    simp only [List.map_cons]
    rw [← lines, ih h']
    congr 1
    have h1 : ((l ++ ['\r']) ++ ['\n']).getLast? = some '\n' := by
      simp [List.getLast?_concat]
    have h2 : ((l ++ ['\r']) ++ ['\n']).dropLast = l ++ ['\r'] := by
      simp [List.dropLast_concat]
    unfold lineMap
    rw [h1, h2]
    simp [List.getLast?_concat, List.dropLast_concat]

theorem joinCRLF_suffix {ls : List (List Char)} (h : ls ≠ []) :
    ['\r', '\n'] <:+ joinCRLF ls := by
  induction ls with
  | nil => exact absurd rfl h
  | cons l ls' ih =>
    cases ls' with
    | nil => exact ⟨l, by simp [joinCRLF]⟩
    | cons x xs =>
      obtain ⟨w, hw⟩ := ih (by simp)
      refine ⟨(l ++ ['\r', '\n']) ++ w, ?_⟩
      rw [List.append_assoc, hw]
      simp [joinCRLF]

theorem crlfOnly_append {a s : List Char} (h : '\n' ∉ a)
    (hs : s.head? ≠ some '\n') : crlfOnly (a ++ s) = crlfOnly s := by
  induction a with
  | nil => simp
  | cons c a' ih =>
    have hc : c ≠ '\n' := fun hcc => h (by simp [hcc])
    have h' : '\n' ∉ a' := fun hm => h (List.mem_cons_of_mem _ hm)
    have hrec : crlfOnly (a' ++ s) = crlfOnly s := ih h'
    rw [List.cons_append]
    cases ha : a' ++ s with
    | nil =>
      have hs0 : s = [] := (List.append_eq_nil.mp ha).2
      subst hs0
      simp [crlfOnly, bne_iff_ne, hc]
    | cons d t =>
      have hd : d ≠ '\n' := by
        intro hdd
        subst hdd
        cases a'' : a' with
        | nil =>
          rw [a''] at ha
          simp only [List.nil_append] at ha
          rw [ha] at hs
          exact hs rfl
        | cons y ys =>
          rw [a''] at ha
          simp only [List.cons_append, List.cons.injEq] at ha
          apply h'
          rw [a'', ha.1]
          exact List.mem_cons_self _ _
      have hstep : crlfOnly (c :: d :: t) = crlfOnly (d :: t) := by
        simp only [crlfOnly]
        rw [if_neg (fun hand => hd hand.2)]
        simp [bne_iff_ne, hc]
      rw [hstep, ← ha, hrec]

theorem crlfOnly_crlf_cons {t : List Char} :
    crlfOnly ('\r' :: '\n' :: t) = crlfOnly t := by
  simp only [crlfOnly]
  simp

theorem crlfOnly_joinCRLF {ls : List (List Char)} (h : ∀ l ∈ ls, '\n' ∉ l) :
    crlfOnly (joinCRLF ls) = true := by
  induction ls with
  | nil => simp [joinCRLF, crlfOnly]
  | cons l ls' ih =>
    have hl : '\n' ∉ l := h l (List.mem_cons_self l ls')
    have h' : ∀ x ∈ ls', '\n' ∉ x := fun x hx => h x (List.mem_cons_of_mem l hx)
    have hshape : joinCRLF (l :: ls') = l ++ ('\r' :: '\n' :: joinCRLF ls') := by
      simp [joinCRLF]
    rw [hshape, crlfOnly_append hl (by simp), crlfOnly_crlf_cons, ih h']

theorem fix_string_crlf_no_nl {s : List Char} (h : '\n' ∉ s) :
    fix_string_crlf s = s ++ ['\r', '\n'] := by
  unfold fix_string_crlf
  rw [splitOnce_eq_none.mpr h]

theorem fix_string_crlf_of_splitOnce_some {s prev rest : List Char}
    (h : splitOnce s = some (prev, rest)) :
    fix_string_crlf s =
      if rest = [] ∧ prev.getLast? ≠ some '\r' then s.dropLast ++ ['\r', '\n']
      else fix_str_crlf s := by
  unfold fix_string_crlf
  rw [h]

theorem joinCRLF_cons_shape {l : List Char} {ls : List (List Char)} :
    joinCRLF (l :: ls) = (l ++ ['\r']) ++ '\n' :: joinCRLF ls := by
  simp [joinCRLF, List.append_assoc]

theorem fix_string_crlf_form (s : List Char) :
    ∃ ls, ls ≠ [] ∧ (∀ l ∈ ls, '\n' ∉ l) ∧ fix_string_crlf s = joinCRLF ls := by
  cases hsp : splitOnce s with
  | none =>
    refine ⟨[s], by simp, ?_, ?_⟩
    · intro l hl
      simp only [List.mem_singleton] at hl
      subst hl
      exact splitOnce_eq_none.mp hsp
    · rw [fix_string_crlf_no_nl (splitOnce_eq_none.mp hsp)]
      simp [joinCRLF]
  | some pr =>
    obtain ⟨prev, rest⟩ := pr
    obtain ⟨hs, hprev⟩ := splitOnce_eq_some hsp
    rw [fix_string_crlf_of_splitOnce_some hsp]
    by_cases hcond : rest = [] ∧ prev.getLast? ≠ some '\r'
    · rw [if_pos hcond]
      refine ⟨[prev], by simp, ?_, ?_⟩
      · intro l hl
        simp only [List.mem_singleton] at hl
        subst hl
        exact hprev
      · obtain ⟨hrest, -⟩ := hcond
        subst hrest
        rw [hs]
        simp [joinCRLF, List.dropLast_concat]
    · rw [if_neg hcond]
      refine ⟨lines s, ?_, fun l hl => nl_not_mem_lines hl, rfl⟩
      intro hl
      rw [lines, List.map_eq_nil_iff] at hl
      have hs0 : s = [] := splitIncl_eq_nil.mp hl
      rw [hs] at hs0
      simp at hs0

theorem fix_string_crlf_good (s : List Char) :
    crlfOnly (fix_string_crlf s) = true ∧ ['\r', '\n'] <:+ fix_string_crlf s := by
  obtain ⟨ls, hne, hfree, heq⟩ := fix_string_crlf_form s
  rw [heq]
  exact ⟨crlfOnly_joinCRLF hfree, joinCRLF_suffix hne⟩

theorem splitOnce_append {a t : List Char} (h : '\n' ∉ a) :
    splitOnce (a ++ '\n' :: t) = some (a, t) := by
  induction a with
  | nil => simp [splitOnce]
  | cons c a' ih =>
    have hc : c ≠ '\n' := fun hcc => h (by simp [hcc])
    have h' : '\n' ∉ a' := fun hm => h (List.mem_cons_of_mem _ hm)
    simp only [List.cons_append, splitOnce, if_neg hc, List.append_eq, ih h']

theorem fix_string_crlf_joinCRLF {ls : List (List Char)} (hne : ls ≠ [])
    (hfree : ∀ l ∈ ls, '\n' ∉ l) : fix_string_crlf (joinCRLF ls) = joinCRLF ls := by
  cases ls with
  | nil => exact absurd rfl hne
  | cons l ls' =>
    have hl : '\n' ∉ l := hfree l (List.mem_cons_self l ls')
    have hfree1 : '\n' ∉ l ++ ['\r'] := by
      simp only [List.mem_append, List.mem_singleton, not_or]
      exact ⟨hl, by decide⟩
    have hsp : splitOnce (joinCRLF (l :: ls')) = some (l ++ ['\r'], joinCRLF ls') := by
      rw [joinCRLF_cons_shape]
      exact splitOnce_append hfree1
    rw [fix_string_crlf_of_splitOnce_some hsp]
    have hcond : ¬(joinCRLF ls' = [] ∧ (l ++ ['\r']).getLast? ≠ some '\r') := by
      intro hand
      exact hand.2 (by simp)
    rw [if_neg hcond, fix_str_crlf, lines_joinCRLF hfree]

/-! ## Handler lemmas -/

theorem char_ofNat_eq_nl {n : Nat} (h : Char.ofNat n = '\n') : n = 10 := by
  by_cases hv : n.isValidChar
  · have h1 : (Char.ofNat n).toNat = n := by
      unfold Char.ofNat
      rw [dif_pos hv]
      simp [Char.toNat, Char.ofNatAux, UInt32.toNat]
    rw [h] at h1
    have h2 : ('\n').toNat = 10 := rfl
    omega
  · have h1 : (Char.ofNat n).toNat = 0 := by
      unfold Char.ofNat
      rw [dif_neg hv]
      simp [Char.toNat, UInt32.toNat]
    rw [h] at h1
    exact absurd h1 (by decide)

theorem utf8Decode_nl {bytes : List Nat} {cs : List Char}
    (h : utf8Decode bytes = some cs) (hm : '\n' ∈ cs) : 10 ∈ bytes := by
  induction bytes using utf8Decode.induct generalizing cs with
  | case1 =>
    rw [show utf8Decode [] = some [] from rfl] at h
    obtain rfl : ([] : List Char) = cs := Option.some.injEq .. |>.mp h
    simp at hm
  | case2 b rest hb ih =>
    rw [utf8Decode.eq_def] at h
    simp only [if_pos hb, Option.map_eq_some'] at h
    obtain ⟨cs', hcs', rfl⟩ := h
    rcases List.mem_cons.mp hm with h1 | h1
    · have hb10 : b = 10 := char_ofNat_eq_nl h1.symm
      rw [hb10]
      exact List.mem_cons_self _ _
    · exact List.mem_cons_of_mem _ (ih hcs' h1)
  | case3 b hb7 =>
    rw [utf8Decode.eq_def] at h
    simp only [if_neg hb7] at h
    cases h
  | case4 b hb7 b2 rest2 hrange hcont ih =>
    rw [utf8Decode.eq_def] at h
    simp only [if_neg hb7, if_pos hrange, if_pos hcont, Option.map_eq_some'] at h
    obtain ⟨cs', hcs', rfl⟩ := h
    rcases List.mem_cons.mp hm with h1 | h1
    · exfalso
      have hv := char_ofNat_eq_nl h1.symm
      simp only [isCont, Bool.and_eq_true, decide_eq_true_eq] at hcont
      omega
    · exact List.mem_cons_of_mem _ (List.mem_cons_of_mem _ (ih hcs' h1))
  | case5 b hb7 b2 rest2 hrange hcont =>
    rw [utf8Decode.eq_def] at h
    simp only [if_neg hb7, if_pos hrange, if_neg hcont] at h
    cases h
  | case6 b hb7 b2 hn2 =>
    rw [utf8Decode.eq_def] at h
    simp only [if_neg hb7, if_neg hn2] at h
    cases h
  | case7 b hb7 b2 hn2 b3 rest3 hrange hcont ih =>
    rw [utf8Decode.eq_def] at h
    simp only [if_neg hb7, if_neg hn2, if_pos hrange, if_pos hcont,
      Option.map_eq_some'] at h
    obtain ⟨cs', hcs', rfl⟩ := h
    rcases List.mem_cons.mp hm with h1 | h1
    · exfalso
      have hv := char_ofNat_eq_nl h1.symm
      simp only [isCont3First, isCont, Bool.and_eq_true, decide_eq_true_eq] at hcont
      obtain ⟨hc2, hc3⟩ := hcont
      by_cases he0 : b = 0xE0
      · rw [if_pos he0] at hc2
        simp only [Bool.and_eq_true, decide_eq_true_eq] at hc2
        omega
      · rw [if_neg he0] at hc2
        by_cases hed : b = 0xED
        · rw [if_pos hed] at hc2
          simp only [Bool.and_eq_true, decide_eq_true_eq] at hc2
          omega
        · rw [if_neg hed] at hc2
          simp only [Bool.and_eq_true, decide_eq_true_eq] at hc2
          omega
    · exact List.mem_cons_of_mem _ (List.mem_cons_of_mem _
        (List.mem_cons_of_mem _ (ih hcs' h1)))
  | case8 b hb7 b2 hn2 b3 rest3 hrange hcont =>
    rw [utf8Decode.eq_def] at h
    simp only [if_neg hb7, if_neg hn2, if_pos hrange, if_neg hcont] at h
    cases h
  | case9 b hb7 b2 hn2 b3 hn3 =>
    rw [utf8Decode.eq_def] at h
    simp only [if_neg hb7, if_neg hn2, if_neg hn3] at h
    cases h
  | case10 b hb7 b2 hn2 b3 hn3 b4 rest4 hrange hcont ih =>
    rw [utf8Decode.eq_def] at h
    simp only [if_neg hb7, if_neg hn2, if_neg hn3, if_pos hrange, if_pos hcont,
      Option.map_eq_some'] at h
    obtain ⟨cs', hcs', rfl⟩ := h
    rcases List.mem_cons.mp hm with h1 | h1
    · exfalso
      have hv := char_ofNat_eq_nl h1.symm
      simp only [isCont4First, isCont, Bool.and_eq_true, decide_eq_true_eq] at hcont
      obtain ⟨⟨hc2, hc3⟩, hc4⟩ := hcont
      by_cases hf0 : b = 0xF0
      · rw [if_pos hf0] at hc2
        simp only [Bool.and_eq_true, decide_eq_true_eq] at hc2
        omega
      · rw [if_neg hf0] at hc2
        by_cases hf4 : b = 0xF4
        · rw [if_pos hf4] at hc2
          simp only [Bool.and_eq_true, decide_eq_true_eq] at hc2
          omega
        · rw [if_neg hf4] at hc2
          simp only [Bool.and_eq_true, decide_eq_true_eq] at hc2
          omega
    · exact List.mem_cons_of_mem _ (List.mem_cons_of_mem _ (List.mem_cons_of_mem _
        (List.mem_cons_of_mem _ (ih hcs' h1))))
  | case11 b hb7 b2 hn2 b3 hn3 b4 rest4 hrange hcont =>
    rw [utf8Decode.eq_def] at h
    simp only [if_neg hb7, if_neg hn2, if_neg hn3, if_pos hrange, if_neg hcont] at h
    cases h
  | case12 b hb7 b2 hn2 b3 hn3 b4 rest4 hn4 =>
    rw [utf8Decode.eq_def] at h
    simp only [if_neg hb7, if_neg hn2, if_neg hn3, if_neg hn4] at h
    cases h

theorem readUntilNL_length (cap : Nat) (input : List Nat) :
    (readUntilNL cap input).length ≤ cap := by
  induction cap generalizing input with
  | zero => cases input <;> simp [readUntilNL]
  | succ n ih =>
    cases input with
    | nil => simp [readUntilNL]
    | cons b rest =>
      by_cases hb : b = 10
      · simp [readUntilNL, hb]
      · simp only [readUntilNL, if_neg hb, List.length_cons]
        exact Nat.succ_le_succ (ih rest)

theorem readUntilNL_prefix_input (cap : Nat) (input : List Nat) :
    readUntilNL cap input <+: input := by
  induction cap generalizing input with
  | zero => cases input <;> simp [readUntilNL]
  | succ n ih =>
    cases input with
    | nil => simp [readUntilNL]
    | cons b rest =>
      by_cases hb : b = 10
      · simp only [readUntilNL, if_pos hb, hb]
        exact ⟨rest, rfl⟩
      · simp only [readUntilNL, if_neg hb]
        obtain ⟨t, ht⟩ := ih rest
        exact ⟨t, by rw [List.cons_append, ht]⟩

theorem readUntilNL_stops (cap : Nat) (input : List Nat) :
    ∀ b ∈ (readUntilNL cap input).dropLast, b ≠ 10 := by
  induction cap generalizing input with
  | zero => cases input <;> simp [readUntilNL]
  | succ n ih =>
    cases input with
    | nil => simp [readUntilNL]
    | cons b rest =>
      by_cases hb : b = 10
      · simp [readUntilNL, if_pos hb]
      · simp only [readUntilNL, if_neg hb]
        intro x hx
        cases hr : readUntilNL n rest with
        | nil => rw [hr] at hx; simp at hx
        | cons y ys =>
          rw [hr, List.dropLast_cons_of_ne_nil (by simp)] at hx
          rcases List.mem_cons.mp hx with h1 | h1
          · rw [h1]; exact hb
          · exact ih rest x (by rw [hr]; exact h1)

theorem stripCRLFSuffix_eq_some {s l : List Char} :
    stripCRLFSuffix s = some l ↔ s = l ++ ['\r', '\n'] := by
  constructor
  · intro h
    unfold stripCRLFSuffix at h
    cases hr : s.reverse with
    | nil => rw [hr] at h; cases h
    | cons c1 t1 =>
      cases t1 with
      | nil => rw [hr] at h; cases h
      | cons c2 rest =>
        rw [hr] at h
        have h' : (if c1 = '\n' ∧ c2 = '\r' then some rest.reverse else none)
            = some l := h
        by_cases hcond : c1 = '\n' ∧ c2 = '\r'
        · rw [if_pos hcond] at h'
          obtain ⟨h1, h2⟩ := hcond
          subst h1; subst h2
          have hl : rest.reverse = l := Option.some.injEq .. |>.mp h'
          have hs : s = s.reverse.reverse := (List.reverse_reverse s).symm
          rw [hs, hr]
          simp [← hl]
        · rw [if_neg hcond] at h'; cases h'
  · intro h
    subst h
    unfold stripCRLFSuffix
    simp [List.reverse_append]

theorem stripCRLFSuffix_none_of_no_nl {s : List Char} (h : '\n' ∉ s) :
    stripCRLFSuffix s = none := by
  cases hst : stripCRLFSuffix s with
  | none => rfl
  | some l =>
    exfalso
    apply h
    rw [stripCRLFSuffix_eq_some.mp hst]
    simp

/-! ## Claim theorems -/

/-- Claim C5: parsing fails for every line not ending in CRLF, for the line
"/Wbob\r\n", and for every line where the greedy username/forwarding match
leaves unconsumed input. -/
theorem c5_parse_failures :
    (∀ s, ¬ ['\r', '\n'] <:+ s → Request.fromStr s = none) ∧
    Request.fromStr "/Wbob\r\n".toList = none ∧
    (∀ s line v i1 leftover req, stripCRLFSuffix s = some line →
      afterVerbose line = (v, i1) → i1 ≠ [] →
      parseBody v i1 = some (leftover, req) → leftover ≠ [] →
      Request.fromStr s = none) := by
  refine ⟨?_, by decide, ?_⟩
  · intro s hnot
    unfold Request.fromStr
    cases hst : stripCRLFSuffix s with
    | none => rfl
    | some l =>
      exact absurd ⟨l, (stripCRLFSuffix_eq_some.mp hst).symm⟩ hnot
  · intro s line v i1 leftover req hst hav hne hbody hleft
    have hparse : parse line = none := by
      unfold parse
      rw [hav]
      have hie : i1.isEmpty = false := by
        cases i1 with
        | nil => exact absurd rfl hne
        | cons x xs => rfl
      simp only [hie, Bool.false_eq_true, if_false, hbody]
      have hle : leftover.isEmpty = false := by
        cases leftover with
        | nil => exact absurd rfl hleft
        | cons x xs => rfl
      simp [hle]
    unfold Request.fromStr
    rw [hst]
    show (match parse line with
          | some ([], req) => some req
          | _ => none) = none
    rw [hparse]

/-- Claim C5 witness: the failure cases at the line "bob" (no CRLF) and at the
line "bob garbage\r\n" (leftover " garbage" after the greedy match). -/
theorem c5_parse_failures_witness :
    Request.fromStr "bob".toList = none ∧
    Request.fromStr "bob garbage\r\n".toList = none :=
  ⟨c5_parse_failures.1 "bob".toList (by decide),
   c5_parse_failures.2.2 "bob garbage\r\n".toList "bob garbage".toList false
     "bob garbage".toList " garbage".toList
     { verbose := false, user := some "bob".toList, forwarding := none }
     (by decide) (by decide) (by decide) (by decide) (by decide)⟩

/-- Claim C2: whenever the received line is malformed — the collected bytes are
not valid UTF-8, or the line fails to parse (missing CRLF terminator or a
grammar violation) — the handler produces no reply at all: the connection's
exchange fails before any byte is written. -/
theorem c2_malformed_no_reply (users : Users) (input : List Nat) :
    (utf8Decode (readUntilNL SANE_REQUEST_LENGTH input) = none →
      handle_client users input = none) ∧
    (∀ line, utf8Decode (readUntilNL SANE_REQUEST_LENGTH input) = some line →
      Request.fromStr line = none → handle_client users input = none) := by
  constructor
  · intro h
    unfold handle_client
    rw [h]
  · intro line h hp
    unfold handle_client
    rw [h]
    show (match Request.fromStr line with
          | none => none
          | some req => some (handleRequest users req)) = none
    rw [hp]

/-- Claim C2 witness: the no-reply guarantee at an invalid UTF-8 byte and at a
line with no CRLF terminator. -/
theorem c2_malformed_no_reply_witness :
    handle_client exampleDirectory [255] = none ∧
    handle_client exampleDirectory (asciiBytes "alice".toList) = none :=
  ⟨(c2_malformed_no_reply exampleDirectory [255]).1 (by decide),
   (c2_malformed_no_reply exampleDirectory (asciiBytes "alice".toList)).2
     "alice".toList (by decide) (by decide)⟩

/-- Claim C9: the handler reads at most 1024 bytes — a prefix of the input,
with no `\n` before its last byte (it stops at the first `\n` or at the end of
the stream) — and any 2000-byte terminator-less line yields no reply. -/
theorem c9_read_bound (input : List Nat) :
    (readUntilNL SANE_REQUEST_LENGTH input).length ≤ 1024 ∧
    readUntilNL SANE_REQUEST_LENGTH input <+: input ∧
    (∀ b ∈ (readUntilNL SANE_REQUEST_LENGTH input).dropLast, b ≠ 10) ∧
    (∀ users : Users, input.length = 2000 → 10 ∉ input →
      handle_client users input = none) := by
  refine ⟨readUntilNL_length _ _, readUntilNL_prefix_input _ _, readUntilNL_stops _ _, ?_⟩
  intro users _ hni
  have hsub : ∀ b ∈ readUntilNL SANE_REQUEST_LENGTH input, b ∈ input :=
    fun b hb => (readUntilNL_prefix_input _ _).subset hb
  have h10 : 10 ∉ readUntilNL SANE_REQUEST_LENGTH input :=
    fun hb => hni (hsub 10 hb)
  unfold handle_client
  cases hdec : utf8Decode (readUntilNL SANE_REQUEST_LENGTH input) with
  | none => rfl
  | some line =>
    have hnl : '\n' ∉ line := fun hm => h10 (utf8Decode_nl hdec hm)
    have hstrip : stripCRLFSuffix line = none := stripCRLFSuffix_none_of_no_nl hnl
    show (match Request.fromStr line with
          | none => none
          | some req => some (handleRequest users req)) = none
    unfold Request.fromStr
    rw [hstrip]

/-- Claim C9 witness: the read bound and no-reply outcome at a 2000-byte
stream of the letter A. -/
theorem c9_read_bound_witness :
    handle_client exampleDirectory (List.replicate 2000 65) = none := by
  refine (c9_read_bound (List.replicate 2000 65)).2.2.2 exampleDirectory ?_ ?_
  · exact List.length_replicate 2000 65
  · intro hm
    have := List.eq_of_mem_replicate hm
    omega

/-- Claim C1: for the directory `{enable-index: true, users: {"alice": "Hello\n"}}`,
the connection handler replies exactly "Hello\r\n" to "alice\r\n", exactly
"alice\r\n" to "\r\n", exactly "User not found\r\n" to "bob\r\n", and exactly
"Finger forwarding service denied\r\n" to "alice@elsewhere\r\n". -/
theorem c1_end_to_end :
    handle_client exampleDirectory (asciiBytes "alice\r\n".toList) =
      some "Hello\r\n".toList ∧
    handle_client exampleDirectory (asciiBytes "\r\n".toList) =
      some "alice\r\n".toList ∧
    handle_client exampleDirectory (asciiBytes "bob\r\n".toList) =
      some "User not found\r\n".toList ∧
    handle_client exampleDirectory (asciiBytes "alice@elsewhere\r\n".toList) =
      some "Finger forwarding service denied\r\n".toList := by
  refine ⟨?_, ?_, ?_, ?_⟩ <;> decide

/-- Claim C4: the request parser maps the six sample inputs to exactly the
stated `Request` values. -/
theorem c4_parse_samples :
    Request.fromStr "\r\n".toList =
      some { verbose := false, user := none, forwarding := none } ∧
    Request.fromStr "/W\r\n".toList =
      some { verbose := true, user := none, forwarding := none } ∧
    Request.fromStr "bob\r\n".toList =
      some { verbose := false, user := some "bob".toList, forwarding := none } ∧
    Request.fromStr "/W bob\r\n".toList =
      some { verbose := true, user := some "bob".toList, forwarding := none } ∧
    Request.fromStr "bob@example.com\r\n".toList =
      some { verbose := false, user := some "bob".toList,
             forwarding := some "@example.com".toList } ∧
    Request.fromStr "@example.com\r\n".toList =
      some { verbose := false, user := none,
             forwarding := some "@example.com".toList } := by
  refine ⟨?_, ?_, ?_, ?_, ?_, ?_⟩ <;> decide

/-- Claim C8 counterexample: a user whose `info` field is present but holds the
empty string makes both accessors return empty even though a source field is
present, so "both return empty only when both source fields are absent" fails. -/
theorem c8_counterexample :
    ({ fix_crlf := true, info := some [], long_info := none, unlisted := false }
        : User).infoText = [] ∧
    ({ fix_crlf := true, info := some [], long_info := none, unlisted := false }
        : User).longInfoText = [] ∧
    ({ fix_crlf := true, info := some [], long_info := none, unlisted := false }
        : User).info ≠ none := by
  decide

/-- Claim C8 (amended): the accessor fallback order is as stated, exactly one
present field makes both accessors agree, and both accessors return empty only
when each source field is absent or holds the empty string. -/
theorem c8_accessors (u : User) :
    (∀ i, u.info = some i → u.infoText = i) ∧
    (u.info = none → ∀ j, u.long_info = some j → u.infoText = j) ∧
    (u.info = none → u.long_info = none → u.infoText = []) ∧
    (∀ j, u.long_info = some j → u.longInfoText = j) ∧
    (u.long_info = none → ∀ i, u.info = some i → u.longInfoText = i) ∧
    (u.long_info = none → u.info = none → u.longInfoText = []) ∧
    (u.info.isSome ≠ u.long_info.isSome → u.infoText = u.longInfoText) ∧
    (u.infoText = [] → u.longInfoText = [] →
      (u.info = none ∨ u.info = some []) ∧ (u.long_info = none ∨ u.long_info = some [])) := by
  obtain ⟨fc, oi, ol, ul⟩ := u
  cases oi <;> cases ol <;>
      simp [User.infoText, User.longInfoText]
  exact fun h1 h2 => ⟨h1, h2⟩

/-- Claim C8 witness: the amended statement instantiated at a user with only
`info` present. -/
theorem c8_accessors_witness :
    ({ fix_crlf := true, info := some ['h'], long_info := none, unlisted := false }
        : User).infoText = ['h'] ∧
    ({ fix_crlf := true, info := some ['h'], long_info := none, unlisted := false }
        : User).longInfoText = ['h'] := by
  have h := c8_accessors
    { fix_crlf := true, info := some ['h'], long_info := none, unlisted := false }
  exact ⟨h.1 ['h'] rfl, h.2.2.2.2.1 rfl ['h'] rfl⟩

/-- Claim C3: every user decoded by `deserialize_users` that has `fix_crlf`
true has, in each present `info`/`long_info` text, only CRLF line terminators
and a final CRLF; and text with no line break at all gets exactly one CRLF
appended by the normalization. -/
theorem c3_normalization :
    (∀ (l : List (List Char × Entry)) (name : List Char) (u : User),
      (name, u) ∈ deserialize_users l → u.fix_crlf = true →
      (∀ s, u.info = some s → crlfOnly s = true ∧ ['\r', '\n'] <:+ s) ∧
      (∀ s, u.long_info = some s → crlfOnly s = true ∧ ['\r', '\n'] <:+ s)) ∧
    (∀ s, '\n' ∉ s → fix_string_crlf s = s ++ ['\r', '\n']) := by
  constructor
  · intro l name u hmem hflag
    rw [deserialize_users] at hmem
    obtain ⟨⟨name', e⟩, hpe, hpq⟩ := List.mem_map.mp hmem
    simp only [Prod.mk.injEq] at hpq
    obtain ⟨-, hu⟩ := hpq
    cases e with
    | str s0 =>
      constructor
      · intro s hs
        rw [← hu] at hs
        simp only [decodeEntry, User.from_info, User.applyFixCrlf, if_pos rfl,
          Option.map_some'] at hs
        obtain rfl := Option.some.injEq .. |>.mp hs
        exact fix_string_crlf_good s0
      · intro s hs
        rw [← hu] at hs
        simp [decodeEntry, User.from_info, User.applyFixCrlf] at hs
    | user u0 =>
      by_cases hf : u0.fix_crlf
      · constructor <;> intro s hs <;> rw [← hu] at hs <;>
          simp only [decodeEntry, User.applyFixCrlf, if_pos hf,
            Option.map_eq_some'] at hs
        · obtain ⟨t, -, ht⟩ := hs
          rw [← ht]
          exact fix_string_crlf_good t
        · obtain ⟨t, -, ht⟩ := hs
          rw [← ht]
          exact fix_string_crlf_good t
      · exfalso
        rw [← hu] at hflag
        simp only [decodeEntry, User.applyFixCrlf, if_neg hf] at hflag
        exact hf (by rw [hflag])
  · exact fun s hs => fix_string_crlf_no_nl hs

/-- Claim C3 witness: the normalization guarantee instantiated at the decoded
directory entry `"alice": "Hello\n"`. -/
theorem c3_normalization_witness :
    crlfOnly "Hello\r\n".toList = true ∧ ['\r', '\n'] <:+ "Hello\r\n".toList :=
  (c3_normalization.1 [("alice".toList, .str "Hello\n".toList)] "alice".toList
      (decodeEntry (.str "Hello\n".toList)) (by decide) (by decide)).1
    "Hello\r\n".toList (by decide)

/-- Claim C10: `fix_string_crlf` is idempotent — applying it twice gives the
same result as applying it once, for every string. -/
theorem c10_fix_string_crlf_idem (s : List Char) :
    fix_string_crlf (fix_string_crlf s) = fix_string_crlf s := by
  obtain ⟨ls, hne, hfree, heq⟩ := fix_string_crlf_form s
  rw [heq]
  exact fix_string_crlf_joinCRLF hne hfree

theorem listingReply_eq (l : List (List Char × User)) :
    listingReply l =
      joinCRLF ((l.filter (fun p => !p.2.unlisted)).map (fun p => p.1)) := by
  induction l with
  | nil => simp [listingReply, joinCRLF]
  | cons p rest ih =>
    obtain ⟨name, u⟩ := p
    by_cases hu : u.unlisted
    · simp [listingReply, hu, List.filter_cons, ih]
    · simp [listingReply, hu, List.filter_cons, ih, joinCRLF]

theorem assoc_nodup_eq {l : List (List Char × User)}
    (hnd : (l.map Prod.fst).Nodup) {name : List Char} {u v : User}
    (hu : (name, u) ∈ l) (hv : (name, v) ∈ l) : u = v := by
  induction l with
  | nil => simp at hu
  | cons p rest ih =>
    simp only [List.map_cons, List.nodup_cons] at hnd
    obtain ⟨hnp, hnd'⟩ := hnd
    rcases List.mem_cons.mp hu with h1 | h1 <;> rcases List.mem_cons.mp hv with h2 | h2
    · rw [← h2] at h1
      exact (Prod.mk.injEq .. |>.mp h1).2
    · exfalso
      apply hnp
      rw [← h1]
      exact List.mem_map.mpr ⟨(name, v), h2, rfl⟩
    · exfalso
      apply hnp
      rw [← h2]
      exact List.mem_map.mpr ⟨(name, u), h1, rfl⟩
    · exact ih hnd' h1 h2

/-- Claim C6: on a list request, `enable_index = false` yields exactly the
fixed denial text whatever the directory holds; `enable_index = true` yields
exactly the non-unlisted usernames each followed by CRLF — with unique keys,
no duplicates and no unlisted name — and the empty reply when no user is
listable. -/
theorem c6_listing (d : Users) (req : Request)
    (hf : req.forwarding = none) (hu : req.user = none) :
    (d.enable_index = false → handleRequest d req = REPLY_NO_LISTING) ∧
    (d.enable_index = true →
      handleRequest d req =
        joinCRLF ((d.users.filter (fun p => !p.2.unlisted)).map (fun p => p.1)) ∧
      ((d.users.map Prod.fst).Nodup →
        ((d.users.filter (fun p => !p.2.unlisted)).map (fun p => p.1)).Nodup ∧
        ∀ name u, (name, u) ∈ d.users → u.unlisted = true →
          name ∉ (d.users.filter (fun p => !p.2.unlisted)).map (fun p => p.1)) ∧
      (d.users.filter (fun p => !p.2.unlisted) = [] → handleRequest d req = [])) := by
  have hreq : handleRequest d req =
      if d.enable_index then listingReply d.users else REPLY_NO_LISTING := by
    simp [handleRequest, hf, hu]
  constructor
  · intro hidx
    rw [hreq, hidx]
    simp
  · intro hidx
    rw [hreq, hidx]
    simp only [if_true]
    refine ⟨listingReply_eq d.users, ?_, ?_⟩
    · intro hnd
      constructor
      · exact ((List.filter_sublist d.users).map (fun p => p.1)).nodup hnd
      · intro name u hmem hunl hin
        obtain ⟨⟨n', v⟩, hvmem, hveq⟩ := List.mem_map.mp hin
        obtain ⟨hvl, hvp⟩ := List.mem_filter.mp hvmem
        simp only at hveq
        subst hveq
        have huv : u = v := assoc_nodup_eq hnd hmem hvl
        rw [← huv, hunl] at hvp
        simp at hvp
    · intro hfil
      rw [listingReply_eq, hfil]
      simp [joinCRLF]

/-- Claim C6 witness: the listing contract applied to the example directory,
whose only user is listable. -/
theorem c6_listing_witness :
    handleRequest exampleDirectory (Request.new_list false) = "alice\r\n".toList := by
  have h := (c6_listing exampleDirectory (Request.new_list false) rfl rfl).2 rfl
  rw [h.1]
  decide

/-- Claim C7: a successful reload installs exactly the decoded directory and
surfaces no error; the snapshot taken before the reload keeps the prior
contents; a failed reload leaves the current directory unchanged and surfaces
the decode error. -/
theorem c7_reload {E : Type} (decode : List Char → Except E Users) (c : Config)
    (toml : List Char) :
    (∀ u, decode toml = .ok u →
      (Config.load decode c toml).1.get = u ∧
      (Config.load decode c toml).2 = none ∧
      Config.get c = c.current) ∧
    (∀ e, decode toml = .error e →
      (Config.load decode c toml).1.get = Config.get c ∧
      (Config.load decode c toml).2 = some e) := by
  constructor
  · intro u hu
    simp [Config.load, hu, Config.set, Config.get]
  · intro e he
    simp [Config.load, he, Config.get]

/-- Claim C7 witness: the reload contract at a concrete decoder that succeeds
on the empty source and fails otherwise. -/
theorem c7_reload_witness :
    (Config.load
        (fun src => if src = [] then Except.ok exampleDirectory else Except.error 0)
        { current := { enable_index := false, users := [] } } []).1.get =
      exampleDirectory ∧
    (Config.load
        (fun src => if src = [] then Except.ok exampleDirectory else Except.error 0)
        { current := { enable_index := false, users := [] } } ['x']).1.get =
      { enable_index := false, users := [] } := by
  have h1 := (c7_reload
    (fun src => if src = [] then Except.ok exampleDirectory else Except.error (0 : Nat))
    { current := { enable_index := false, users := [] } } []).1
    exampleDirectory rfl
  have h2 := (c7_reload
    (fun src => if src = [] then Except.ok exampleDirectory else Except.error (0 : Nat))
    { current := { enable_index := false, users := [] } } ['x']).2
    0 rfl
  exact ⟨h1.1, h2.1⟩

end Fingered
